import Mathlib

/-!
# Verification of the Canny-style edge-detection core (`edge_detector.cpp`)

Shallow embedding of the edge-detection pipeline:
images are 2D grids of real numbers (the C++ code works on `CV_32F`
matrices; we model the arithmetic over `ℝ`, and over a general linear
ordered field for the purely order-based thresholding stage), and each
C++ function becomes a Lean function on grids.
-/

namespace EdgeDetection

/-- A 2D image-shaped grid: `rows × cols` cells, addressed row-major as
`data y x` (matching `Mat::at(y, x)` in the source).  The `data` function
is total; only the values at `y < rows`, `x < cols` are meaningful. -/
structure Grid (α : Type) where
  rows : ℕ
  cols : ℕ
  data : ℕ → ℕ → α

/-- `std::atan2(y, x)`: the angle of the point `(x, y)`, in `(-π, π]`,
modelled as the argument of the complex number `x + y·i`. -/
noncomputable def atan2 (y x : ℝ) : ℝ := Complex.arg { re := x, im := y }

/-- The per-pixel angle computed inline by both `calculateGradientMagnitude`
and `calculateGradientDirection` (edge_detector.cpp lines 108-110 and
139-142, identical code):
`theta = (gxx - gyy < 0) ? π/4 : 0.5 * atan2(2*gxy, gxx - gyy)`. -/
noncomputable def thetaPix (gxx gyy gxy : ℝ) : ℝ :=
  if gxx - gyy < 0 then Real.pi / 4 else 0.5 * atan2 (2 * gxy) (gxx - gyy)

/-- The expression under the square root in `calculateGradientMagnitude`
(edge_detector.cpp lines 115-119):
`0.5 * ((gxx + gyy) + (gxx - gyy)·cos 2θ + 2·gxy·sin 2θ)`. -/
noncomputable def magExprPix (gxx gyy gxy : ℝ) : ℝ :=
  0.5 * ((gxx + gyy) + (gxx - gyy) * Real.cos (2 * thetaPix gxx gyy gxy)
    + 2 * gxy * Real.sin (2 * thetaPix gxx gyy gxy))

/-- Per-pixel gradient magnitude (edge_detector.cpp line 115). -/
noncomputable def magnitudePix (gxx gyy gxy : ℝ) : ℝ :=
  Real.sqrt (magExprPix gxx gyy gxy)

/-- `calculateGradientMagnitude` (edge_detector.cpp lines 102-122):
allocates a zero grid of the size of `gxx` and fills every pixel with the
per-pixel magnitude formula. -/
noncomputable def calculateGradientMagnitude (gxx gyy gxy : Grid ℝ) : Grid ℝ :=
  ⟨gxx.rows, gxx.cols, fun y x =>
    magnitudePix (gxx.data y x) (gyy.data y x) (gxy.data y x)⟩

/-- `calculateGradientDirection` (edge_detector.cpp lines 133-145):
per pixel, `denominator < 0 ? π/4 : 0.5 * atan2(numerator, denominator)`. -/
noncomputable def calculateGradientDirection (gxx gyy gxy : Grid ℝ) : Grid ℝ :=
  ⟨gxx.rows, gxx.cols, fun y x =>
    thetaPix (gxx.data y x) (gyy.data y x) (gxy.data y x)⟩

/-- `computeCoefficientsGray` (edge_detector.cpp lines 46-61): per pixel
`gxx = dx·dx`, `gyy = dy·dy`, `gxy = dx·dy`. -/
def computeCoefficientsGray (gradientX gradientY : Grid ℝ) :
    Grid ℝ × Grid ℝ × Grid ℝ :=
  (⟨gradientX.rows, gradientX.cols, fun y x =>
      gradientX.data y x * gradientX.data y x⟩,
   ⟨gradientX.rows, gradientX.cols, fun y x =>
      gradientY.data y x * gradientY.data y x⟩,
   ⟨gradientX.rows, gradientX.cols, fun y x =>
      gradientX.data y x * gradientY.data y x⟩)

/-- `computeCoefficientsColor` (edge_detector.cpp lines 75-91): per pixel,
sums of `dx_i^2`, `dy_i^2`, `dx_i·dy_i` over the three channels. -/
def computeCoefficientsColor (gradientX gradientY : Fin 3 → Grid ℝ) :
    Grid ℝ × Grid ℝ × Grid ℝ :=
  (⟨(gradientX 0).rows, (gradientX 0).cols, fun y x =>
      ∑ i, ((gradientX i).data y x) ^ 2⟩,
   ⟨(gradientX 0).rows, (gradientX 0).cols, fun y x =>
      ∑ i, ((gradientY i).data y x) ^ 2⟩,
   ⟨(gradientX 0).rows, (gradientX 0).cols, fun y x =>
      ∑ i, (gradientX i).data y x * (gradientY i).data y x⟩)

/-- A structure-tensor triple `(gxx, gyy, gxy)` is *representable* when it
arises from `computeCoefficientsGray` (a single channel) or from
`computeCoefficientsColor` (three channels) at some pixel. -/
def Representable (gxx gyy gxy : ℝ) : Prop :=
  (∃ dx dy : ℝ, gxx = dx * dx ∧ gyy = dy * dy ∧ gxy = dx * dy) ∨
  (∃ dx dy : Fin 3 → ℝ,
    gxx = ∑ i, dx i ^ 2 ∧ gyy = ∑ i, dy i ^ 2 ∧ gxy = ∑ i, dx i * dy i)

lemma representable_nonneg {gxx gyy gxy : ℝ} (h : Representable gxx gyy gxy) :
    0 ≤ gxx ∧ 0 ≤ gyy ∧ 0 ≤ gxx + gyy + 2 * gxy := by
  rcases h with ⟨dx, dy, hx, hy, hxy⟩ | ⟨dx, dy, hx, hy, hxy⟩
  · subst hx; subst hy; subst hxy
    refine ⟨mul_self_nonneg _, mul_self_nonneg _, ?_⟩
    nlinarith [sq_nonneg (dx + dy)]
  · subst hx; subst hy; subst hxy
    refine ⟨Finset.sum_nonneg fun i _ => sq_nonneg _,
      Finset.sum_nonneg fun i _ => sq_nonneg _, ?_⟩
    have h : (∑ i, dx i ^ 2) + (∑ i, dy i ^ 2) + 2 * ∑ i, dx i * dy i
        = ∑ i, (dx i + dy i) ^ 2 := by
      rw [Finset.mul_sum, ← Finset.sum_add_distrib, ← Finset.sum_add_distrib]
      exact Finset.sum_congr rfl fun i _ => by ring
    rw [h]
    exact Finset.sum_nonneg fun i _ => sq_nonneg _

lemma magExprPix_nonneg {gxx gyy gxy : ℝ} (hx : 0 ≤ gxx) (hy : 0 ≤ gyy)
    (hs : 0 ≤ gxx + gyy + 2 * gxy) : 0 ≤ magExprPix gxx gyy gxy := by
  unfold magExprPix thetaPix
  by_cases hd : gxx - gyy < 0
  · rw [if_pos hd]
    have h2 : 2 * (Real.pi / 4) = Real.pi / 2 := by ring
    rw [h2, Real.cos_pi_div_two, Real.sin_pi_div_two]
    linarith
  · rw [if_neg hd]
    push_neg at hd
    set z : Complex := { re := gxx - gyy, im := 2 * gxy } with hz
    have h2 : 2 * (0.5 * atan2 (2 * gxy) (gxx - gyy)) = Complex.arg z := by
      rw [hz]; unfold atan2; ring
    rw [h2]
    by_cases h0 : z = 0
    · have hre : gxx - gyy = 0 := by
        have := congrArg Complex.re h0; simpa using this
      rw [h0, Complex.arg_zero, Real.cos_zero, Real.sin_zero]
      nlinarith
    · have habs : 0 < Complex.abs z := Complex.abs.pos h0
      rw [Complex.cos_arg h0, Complex.sin_arg]
      have hre : z.re = gxx - gyy := rfl
      have him : z.im = 2 * gxy := rfl
      rw [hre, him]
      have hA : Complex.abs z ≠ 0 := ne_of_gt habs
      have hq : (gxx - gyy) * ((gxx - gyy) / Complex.abs z)
          + 2 * gxy * (2 * gxy / Complex.abs z)
          = ((gxx - gyy) * (gxx - gyy) + (2 * gxy) * (2 * gxy)) / Complex.abs z := by
        field_simp
      have hnum : 0 ≤ (gxx - gyy) * (gxx - gyy) + (2 * gxy) * (2 * gxy) := by
        nlinarith
      have hdiv : 0 ≤ ((gxx - gyy) * (gxx - gyy) + (2 * gxy) * (2 * gxy))
          / Complex.abs z := div_nonneg hnum habs.le
      nlinarith

/-- **C3.** For every pixel of the resolver's input (any structure tensor
representable as the output of `computeCoefficientsGray` or
`computeCoefficientsColor`), the expression under the square root in the
magnitude formula is non-negative, and hence the resolved magnitude is
`≥ 0`, given the `denominator < 0` fallback to `θ = π/4`. -/
theorem C3_magnitude_nonneg :
    (∀ gX gY : Grid ℝ, ∀ y x : ℕ,
      Representable ((computeCoefficientsGray gX gY).1.data y x)
        ((computeCoefficientsGray gX gY).2.1.data y x)
        ((computeCoefficientsGray gX gY).2.2.data y x)) ∧
    (∀ gX gY : Fin 3 → Grid ℝ, ∀ y x : ℕ,
      Representable ((computeCoefficientsColor gX gY).1.data y x)
        ((computeCoefficientsColor gX gY).2.1.data y x)
        ((computeCoefficientsColor gX gY).2.2.data y x)) ∧
    (∀ gxx gyy gxy : ℝ, Representable gxx gyy gxy →
      0 ≤ magExprPix gxx gyy gxy ∧ 0 ≤ magnitudePix gxx gyy gxy) := by
  refine ⟨?_, ?_, ?_⟩
  · intro gX gY y x
    exact Or.inl ⟨gX.data y x, gY.data y x, rfl, rfl, rfl⟩
  · intro gX gY y x
    exact Or.inr ⟨fun i => (gX i).data y x, fun i => (gY i).data y x, rfl, rfl, rfl⟩
  · intro gxx gyy gxy h
    obtain ⟨hx, hy, hs⟩ := representable_nonneg h
    exact ⟨magExprPix_nonneg hx hy hs, Real.sqrt_nonneg _⟩

/-- Witness for C3 at the concrete tensor `(1, 1, 1)` (from `dx = dy = 1`). -/
theorem C3_witness :
    Representable 1 1 1 ∧ 0 ≤ magExprPix 1 1 1 ∧ 0 ≤ magnitudePix 1 1 1 := by
  have hrep : Representable 1 1 1 := Or.inl ⟨1, 1, by norm_num, by norm_num, by norm_num⟩
  exact ⟨hrep, (C3_magnitude_nonneg.2.2 1 1 1 hrep).1, (C3_magnitude_nonneg.2.2 1 1 1 hrep).2⟩

/-- **C4.** The resolver computes `θ = π/4` when `gxx - gyy < 0` and
`θ = 0.5 · atan2(2·gxy, gxx - gyy)` otherwise; the magnitude is the closed
form `sqrt(0.5·((gxx+gyy) + (gxx−gyy)·cos 2θ + 2·gxy·sin 2θ))` evaluated at
that same `θ`; and wherever `gyy > gxx` the direction is exactly `π/4`. -/
theorem C4_direction_branch (gxx gyy gxy : Grid ℝ) (y x : ℕ) :
    ((calculateGradientDirection gxx gyy gxy).data y x =
      (if gxx.data y x - gyy.data y x < 0 then Real.pi / 4
       else 0.5 * atan2 (2 * gxy.data y x) (gxx.data y x - gyy.data y x))) ∧
    ((calculateGradientMagnitude gxx gyy gxy).data y x =
      Real.sqrt (0.5 * ((gxx.data y x + gyy.data y x)
        + (gxx.data y x - gyy.data y x)
          * Real.cos (2 * (calculateGradientDirection gxx gyy gxy).data y x)
        + 2 * gxy.data y x
          * Real.sin (2 * (calculateGradientDirection gxx gyy gxy).data y x)))) ∧
    (gxx.data y x < gyy.data y x →
      (calculateGradientDirection gxx gyy gxy).data y x = Real.pi / 4) := by
  refine ⟨rfl, rfl, fun h => ?_⟩
  show thetaPix (gxx.data y x) (gyy.data y x) (gxy.data y x) = Real.pi / 4
  unfold thetaPix
  rw [if_pos (by linarith)]

/-- Witness for C4 at a concrete degenerate pixel (`gxx = 0 < 1 = gyy`). -/
theorem C4_witness :
    (calculateGradientDirection ⟨1, 1, fun _ _ => 0⟩ ⟨1, 1, fun _ _ => 1⟩
      ⟨1, 1, fun _ _ => 0⟩).data 0 0 = Real.pi / 4 := by
  have h := (C4_direction_branch ⟨1, 1, fun _ _ => 0⟩ ⟨1, 1, fun _ _ => 1⟩
    ⟨1, 1, fun _ _ => 0⟩ 0 0).2.2
  exact h (by norm_num)

/-- The degree conversion and negative-angle shift performed by
`applySuppression` (edge_detector.cpp lines 212-214):
`angleDeg = angle * 180 / π; if (angleDeg < 0) angleDeg += 180`. -/
noncomputable def normDeg (angle : ℝ) : ℝ :=
  if angle * 180 / Real.pi < 0 then angle * 180 / Real.pi + 180
  else angle * 180 / Real.pi

/-- The neighbor pair `(q, r)` selected by the `if/else if` chain of
`applySuppression` (edge_detector.cpp lines 216-233), with the
`q = r = 255` defaults when no sector condition matches. -/
noncomputable def selectQR (mag : ℕ → ℕ → ℝ) (y x : ℕ) (angleDeg : ℝ) : ℝ × ℝ :=
  if (0 ≤ angleDeg ∧ angleDeg < 22.5) ∨ (157.5 ≤ angleDeg ∧ angleDeg ≤ 180) then
    (mag y (x + 1), mag y (x - 1))
  else if 22.5 ≤ angleDeg ∧ angleDeg < 67.5 then
    (mag (y + 1) (x - 1), mag (y - 1) (x + 1))
  else if 67.5 ≤ angleDeg ∧ angleDeg < 112.5 then
    (mag (y + 1) x, mag (y - 1) x)
  else if 112.5 ≤ angleDeg ∧ angleDeg < 157.5 then
    (mag (y - 1) (x - 1), mag (y + 1) (x + 1))
  else (255, 255)

/-- `EdgeDetector::applySuppression` (edge_detector.cpp lines 207-241):
the output grid is zero-initialized; only interior pixels
(`1 ≤ y < rows-1`, `1 ≤ x < cols-1`) are written, with the pixel kept iff
its magnitude is `≥` both direction-selected neighbors. -/
noncomputable def applySuppression (magnitude direction : Grid ℝ) : Grid ℝ :=
  ⟨magnitude.rows, magnitude.cols, fun y x =>
    if 1 ≤ y ∧ y + 1 < magnitude.rows ∧ 1 ≤ x ∧ x + 1 < magnitude.cols then
      let qr := selectQR magnitude.data y x (normDeg (direction.data y x))
      if qr.1 ≤ magnitude.data y x ∧ qr.2 ≤ magnitude.data y x then
        magnitude.data y x
      else 0
    else 0⟩

/-- **C5.** For every input of dimensions at least 3×3, every pixel of the
outermost 1-pixel ring of the grid returned by `applySuppression` is 0. -/
theorem C5_border_ring_zero (magnitude direction : Grid ℝ) (y x : ℕ)
    (hr : 3 ≤ magnitude.rows) (hc : 3 ≤ magnitude.cols)
    (hy : y < magnitude.rows) (hx : x < magnitude.cols)
    (hborder : y = 0 ∨ y = magnitude.rows - 1 ∨ x = 0 ∨ x = magnitude.cols - 1) :
    (applySuppression magnitude direction).data y x = 0 := by
  show (if 1 ≤ y ∧ y + 1 < magnitude.rows ∧ 1 ≤ x ∧ x + 1 < magnitude.cols
    then _ else (0:ℝ)) = 0
  rw [if_neg]
  omega

/-- Witness for C5 on a concrete 3×3 input, at the border pixel `(0, 2)`. -/
theorem C5_witness :
    (applySuppression ⟨3, 3, fun _ _ => 1⟩ ⟨3, 3, fun _ _ => 0⟩).data 0 2 = 0 :=
  C5_border_ring_zero ⟨3, 3, fun _ _ => 1⟩ ⟨3, 3, fun _ _ => 0⟩ 0 2
    (by norm_num) (by norm_num) (by norm_num) (by norm_num) (Or.inl rfl)

/-- The sector-to-neighbor mapping exactly as the specification states it:
`[0,22.5) ∪ [157.5,180]` → horizontal `(x±1)`; `[22.5,67.5)` →
`(y+1,x−1)/(y−1,x+1)`; `[67.5,112.5)` → vertical `(y±1)`; `[112.5,157.5)`
→ `(y−1,x−1)/(y+1,x+1)`. Stated over a degree value already normalized
into `[0,180]`, so the four sectors are exhaustive. -/
noncomputable def sectorNeighbors (mag : ℕ → ℕ → ℝ) (y x : ℕ) (angleDeg : ℝ) : ℝ × ℝ :=
  if angleDeg < 22.5 ∨ 157.5 ≤ angleDeg then (mag y (x + 1), mag y (x - 1))
  else if angleDeg < 67.5 then (mag (y + 1) (x - 1), mag (y - 1) (x + 1))
  else if angleDeg < 112.5 then (mag (y + 1) x, mag (y - 1) x)
  else (mag (y - 1) (x - 1), mag (y + 1) (x + 1))

lemma normDeg_mem (angle : ℝ) (h1 : -Real.pi < angle) (h2 : angle ≤ Real.pi) :
    0 ≤ normDeg angle ∧ normDeg angle ≤ 180 := by
  have hpi := Real.pi_pos
  unfold normDeg
  by_cases hneg : angle * 180 / Real.pi < 0
  · rw [if_pos hneg]
    constructor
    · have : -180 < angle * 180 / Real.pi := by
        rw [lt_div_iff hpi]
        nlinarith
      linarith
    · linarith
  · rw [if_neg hneg]
    push_neg at hneg
    constructor
    · exact hneg
    · rw [div_le_iff hpi]
      nlinarith

lemma selectQR_eq_sector (mag : ℕ → ℕ → ℝ) (y x : ℕ) (d : ℝ)
    (h0 : 0 ≤ d) (h180 : d ≤ 180) :
    selectQR mag y x d = sectorNeighbors mag y x d := by
  unfold selectQR sectorNeighbors
  rcases lt_or_le d 22.5 with h1 | h1
  · rw [if_pos (Or.inl ⟨h0, h1⟩), if_pos (Or.inl h1)]
  rcases lt_or_le d 67.5 with h2 | h2
  · rw [if_neg (by rintro (⟨_, hb⟩ | ⟨hb, _⟩) <;> linarith),
      if_pos ⟨h1, h2⟩,
      if_neg (by rintro (hb | hb) <;> linarith),
      if_pos h2]
  rcases lt_or_le d 112.5 with h3 | h3
  · rw [if_neg (by rintro (⟨_, hb⟩ | ⟨hb, _⟩) <;> linarith),
      if_neg (by rintro ⟨_, hb⟩; linarith),
      if_pos ⟨h2, h3⟩,
      if_neg (by rintro (hb | hb) <;> linarith),
      if_neg (by intro hb; linarith),
      if_pos h3]
  rcases lt_or_le d 157.5 with h4 | h4
  · rw [if_neg (by rintro (⟨_, hb⟩ | ⟨hb, _⟩) <;> linarith),
      if_neg (by rintro ⟨_, hb⟩; linarith),
      if_neg (by rintro ⟨hb, _⟩; linarith),
      if_pos ⟨h3, h4⟩,
      if_neg (by rintro (hb | hb) <;> linarith),
      if_neg (by intro hb; linarith),
      if_neg (by intro hb; linarith)]
  · rw [if_pos (Or.inr ⟨h4, h180⟩), if_pos (Or.inr h4)]

/-- **C6.** For every interior pixel whose direction lies in the resolver's
output range `(-π, π]`, `applySuppression` keeps the pixel's magnitude iff
the magnitude is `≥` both neighbors selected by quantizing the direction
(converted to degrees, negatives shifted by +180) into the 4 sectors of
`sectorNeighbors`; otherwise the output is 0 (so ties survive). -/
theorem C6_suppression_sectors (magnitude direction : Grid ℝ) (y x : ℕ)
    (hy1 : 1 ≤ y) (hy2 : y + 1 < magnitude.rows)
    (hx1 : 1 ≤ x) (hx2 : x + 1 < magnitude.cols)
    (hd1 : -Real.pi < direction.data y x) (hd2 : direction.data y x ≤ Real.pi) :
    (applySuppression magnitude direction).data y x =
      (let qr := sectorNeighbors magnitude.data y x (normDeg (direction.data y x))
       if qr.1 ≤ magnitude.data y x ∧ qr.2 ≤ magnitude.data y x then
         magnitude.data y x
       else 0) := by
  obtain ⟨hn0, hn180⟩ := normDeg_mem _ hd1 hd2
  show (if 1 ≤ y ∧ y + 1 < magnitude.rows ∧ 1 ≤ x ∧ x + 1 < magnitude.cols
    then _ else (0:ℝ)) = _
  rw [if_pos ⟨hy1, hy2, hx1, hx2⟩,
    selectQR_eq_sector magnitude.data y x _ hn0 hn180]

/-- Witness for C6 on a concrete 3×3 input at the interior pixel `(1, 1)`
with direction 0 (horizontal sector). -/
theorem C6_witness :
    (applySuppression ⟨3, 3, fun _ _ => 1⟩ ⟨3, 3, fun _ _ => 0⟩).data 1 1 =
      (let qr := sectorNeighbors (fun _ _ => (1:ℝ)) 1 1 (normDeg 0)
       if qr.1 ≤ (1:ℝ) ∧ qr.2 ≤ (1:ℝ) then (1:ℝ) else 0) :=
  C6_suppression_sectors ⟨3, 3, fun _ _ => 1⟩ ⟨3, 3, fun _ _ => 0⟩ 1 1
    (by norm_num) (by norm_num) (by norm_num) (by norm_num)
    (by simpa using neg_neg_of_pos Real.pi_pos) Real.pi_pos.le

/-- All cell values of a grid, row-major. -/
def gridValues {α : Type} (g : Grid α) : List α :=
  ((List.range g.rows).map fun y => (List.range g.cols).map fun x => g.data y x).join

/-- Modelled from the spec: the global-maximum reduction over a grid
(`cv::minMaxLoc`, a §6 collaborator contract: "a global-maximum reduction
over a grid"); for a non-empty grid this is the maximum cell value. -/
def gridMax {α : Type} [LinearOrder α] (g : Grid α) : α :=
  (gridValues g).foldr max (g.data 0 0)

/-- The interior scan coordinates of the hysteresis loop
(edge_detector.cpp lines 281-282: `y` from 1 to `rows-2`, `x` from 1 to
`cols-2`, row-major). -/
def interiorList (rows cols : ℕ) : List (ℕ × ℕ) :=
  ((List.range (rows - 2)).map fun i =>
    (List.range (cols - 2)).map fun j => (i + 1, j + 1)).join

/-- Interior pixel predicate (`1 ≤ y < rows-1`, `1 ≤ x < cols-1`). -/
def isInterior (rows cols : ℕ) (p : ℕ × ℕ) : Prop :=
  1 ≤ p.1 ∧ p.1 + 1 < rows ∧ 1 ≤ p.2 ∧ p.2 + 1 < cols

/-- The 8 neighbors of pixel `(y, x)` read by the hysteresis loop
(edge_detector.cpp lines 275-276, offsets `dx`, `dy`), in scan order.
Meaningful for interior pixels (`y, x ≥ 1`). -/
def neighborList (y x : ℕ) : List (ℕ × ℕ) :=
  [(y - 1, x - 1), (y - 1, x), (y - 1, x + 1),
   (y, x - 1), (y, x + 1),
   (y + 1, x - 1), (y + 1, x), (y + 1, x + 1)]

/-- One iteration of the inner body of the hysteresis scan
(edge_detector.cpp lines 283-291): a weak, not-yet-accepted pixel with an
accepted 8-neighbor is promoted into the accepted set. -/
def passStep (weak : Finset (ℕ × ℕ)) (edges : Finset (ℕ × ℕ)) (p : ℕ × ℕ) :
    Finset (ℕ × ℕ) :=
  if p ∈ weak ∧ p ∉ edges ∧ ∃ q ∈ neighborList p.1 p.2, q ∈ edges then
    insert p edges
  else edges

/-- One full interior scan of the hysteresis loop, with the in-place
update semantics of the source (earlier promotions in the same pass are
visible to later pixels of the same pass). -/
def onePass (rows cols : ℕ) (weak edges : Finset (ℕ × ℕ)) : Finset (ℕ × ℕ) :=
  (interiorList rows cols).foldl (passStep weak) edges

/-- The `do { ... } while (changed)` fixed-point loop of
`applyThresholding` (edge_detector.cpp lines 278-294), with explicit
fuel: run a pass; if nothing changed, stop, else repeat. Since each
changing pass strictly enlarges the accepted set, fuel `rows*cols + 1`
always reaches the fixed point (proved below). -/
def growLoop (rows cols : ℕ) (weak : Finset (ℕ × ℕ)) :
    ℕ → Finset (ℕ × ℕ) → Finset (ℕ × ℕ)
  | 0, edges => edges
  | n + 1, edges =>
    let e2 := onePass rows cols weak edges
    if e2 = edges then edges else growLoop rows cols weak n e2

/-- The strong-pixel classification of `applyThresholding`
(edge_detector.cpp line 268): pixels with `val ≥ highThr`. -/
def strongSet {α : Type} [LinearOrderedField α] (s : Grid α) (highThr : α) :
    Finset (ℕ × ℕ) :=
  (Finset.range s.rows ×ˢ Finset.range s.cols).filter
    fun p => highThr ≤ s.data p.1 p.2

/-- The weak-pixel classification of `applyThresholding`
(edge_detector.cpp line 269): pixels failing the strong test with
`val ≥ lowThr`. -/
def weakSet {α : Type} [LinearOrderedField α] (s : Grid α) (lowThr highThr : α) :
    Finset (ℕ × ℕ) :=
  (Finset.range s.rows ×ˢ Finset.range s.cols).filter
    fun p => ¬ highThr ≤ s.data p.1 p.2 ∧ lowThr ≤ s.data p.1 p.2

/-- `EdgeDetector::applyThresholding` (edge_detector.cpp lines 254-297):
thresholds relative to the global max, strong/weak classification, then
the fixed-point growth loop; the returned mat holds 255 on accepted
pixels and 0 elsewhere. -/
def applyThresholding {α : Type} [LinearOrderedField α] (s : Grid α)
    (lowThreshold highThreshold : α) : Grid ℕ :=
  let maxVal := gridMax s
  let strong := strongSet s (highThreshold * maxVal)
  let weak := weakSet s (lowThreshold * maxVal) (highThreshold * maxVal)
  let edges := growLoop s.rows s.cols weak (s.rows * s.cols + 1) strong
  ⟨s.rows, s.cols, fun y x => if (y, x) ∈ edges then 255 else 0⟩

lemma mem_gridValues {α : Type} {g : Grid α} {y x : ℕ}
    (hy : y < g.rows) (hx : x < g.cols) : g.data y x ∈ gridValues g := by
  unfold gridValues
  rw [List.mem_join]
  exact ⟨(List.range g.cols).map fun x => g.data y x,
    List.mem_map.2 ⟨y, List.mem_range.2 hy, rfl⟩,
    List.mem_map.2 ⟨x, List.mem_range.2 hx, rfl⟩⟩

lemma le_foldr_max {α : Type} [LinearOrder α] {a : α} {l : List α} (init : α)
    (h : a ∈ l) : a ≤ l.foldr max init := by
  induction l with
  | nil => cases h
  | cons b t ih =>
    rcases List.mem_cons.1 h with rfl | h
    · exact le_max_left _ _
    · exact le_trans (ih h) (le_max_right _ _)

lemma init_le_foldr_max {α : Type} [LinearOrder α] (init : α) (l : List α) :
    init ≤ l.foldr max init := by
  induction l with
  | nil => exact le_refl _
  | cons b t ih => exact le_trans ih (le_max_right _ _)

lemma foldr_max_le {α : Type} [LinearOrder α] {b : α} {l : List α} {init : α}
    (hinit : init ≤ b) (h : ∀ a ∈ l, a ≤ b) : l.foldr max init ≤ b := by
  induction l with
  | nil => exact hinit
  | cons c t ih =>
    exact max_le (h c (List.mem_cons_self c t)) (ih fun a ha => h a (List.mem_cons_of_mem c ha))

lemma le_gridMax {α : Type} [LinearOrder α] (g : Grid α) {y x : ℕ}
    (hy : y < g.rows) (hx : x < g.cols) : g.data y x ≤ gridMax g :=
  le_foldr_max _ (mem_gridValues hy hx)

lemma mem_interiorList {rows cols : ℕ} {p : ℕ × ℕ} :
    p ∈ interiorList rows cols ↔ isInterior rows cols p := by
  unfold interiorList isInterior
  rw [List.mem_join]
  constructor
  · rintro ⟨l, hl, hp⟩
    obtain ⟨i, hi, rfl⟩ := List.mem_map.1 hl
    obtain ⟨j, hj, rfl⟩ := List.mem_map.1 hp
    rw [List.mem_range] at hi hj
    simp only
    omega
  · rintro ⟨h1, h2, h3, h4⟩
    refine ⟨(List.range (cols - 2)).map fun j => (p.1, j + 1),
      List.mem_map.2 ⟨p.1 - 1, List.mem_range.2 (by omega), ?_⟩,
      List.mem_map.2 ⟨p.2 - 1, List.mem_range.2 (by omega), ?_⟩⟩
    · have : p.1 - 1 + 1 = p.1 := by omega
      rw [this]
    · have : p.2 - 1 + 1 = p.2 := by omega
      rw [this]

lemma subset_passStep (weak edges : Finset (ℕ × ℕ)) (p : ℕ × ℕ) :
    edges ⊆ passStep weak edges p := by
  unfold passStep
  split_ifs with h
  · exact Finset.subset_insert _ _
  · exact Finset.Subset.refl _

lemma subset_foldl_passStep (weak : Finset (ℕ × ℕ)) (l : List (ℕ × ℕ))
    (edges : Finset (ℕ × ℕ)) : edges ⊆ l.foldl (passStep weak) edges := by
  induction l generalizing edges with
  | nil => exact Finset.Subset.refl _
  | cons p t ih =>
    exact (subset_passStep weak edges p).trans (ih (passStep weak edges p))

lemma subset_onePass (rows cols : ℕ) (weak edges : Finset (ℕ × ℕ)) :
    edges ⊆ onePass rows cols weak edges :=
  subset_foldl_passStep weak _ edges
/-- 8-adjacency reachability from the strong seeds through interior weak
pixels: the order-independent specification of the hysteresis growth. -/
inductive Reach (rows cols : ℕ) (strong weak : Finset (ℕ × ℕ)) : ℕ × ℕ → Prop where
  | base : ∀ {p}, p ∈ strong → Reach rows cols strong weak p
  | step : ∀ {p q}, p ∈ weak → isInterior rows cols p →
      q ∈ neighborList p.1 p.2 → Reach rows cols strong weak q →
      Reach rows cols strong weak p

lemma foldl_passStep_subset_univ {weak U : Finset (ℕ × ℕ)} :
    ∀ (l : List (ℕ × ℕ)), (∀ p ∈ l, p ∈ U) → ∀ {edges : Finset (ℕ × ℕ)},
      edges ⊆ U → l.foldl (passStep weak) edges ⊆ U := by
  intro l
  induction l with
  | nil => intro _ edges he; exact he
  | cons a t ih =>
    intro hl edges he
    refine ih (fun p hp => hl p (List.mem_cons_of_mem a hp)) ?_
    unfold passStep
    split_ifs with h
    · exact Finset.insert_subset (hl a (List.mem_cons_self a t)) he
    · exact he

lemma interior_mem_univ {rows cols : ℕ} {p : ℕ × ℕ}
    (h : isInterior rows cols p) :
    p ∈ Finset.range rows ×ˢ Finset.range cols := by
  obtain ⟨h1, h2, h3, h4⟩ := h
  exact Finset.mem_product.2 ⟨Finset.mem_range.2 (by omega), Finset.mem_range.2 (by omega)⟩

lemma onePass_subset_univ {rows cols : ℕ} {weak edges : Finset (ℕ × ℕ)}
    (he : edges ⊆ Finset.range rows ×ˢ Finset.range cols) :
    onePass rows cols weak edges ⊆ Finset.range rows ×ˢ Finset.range cols :=
  foldl_passStep_subset_univ _
    (fun p hp => interior_mem_univ (mem_interiorList.1 hp)) he

lemma growLoop_succ (rows cols : ℕ) (weak : Finset (ℕ × ℕ)) (n : ℕ)
    (edges : Finset (ℕ × ℕ)) :
    growLoop rows cols weak (n + 1) edges =
      if onePass rows cols weak edges = edges then edges
      else growLoop rows cols weak n (onePass rows cols weak edges) := by
  rfl

lemma growLoop_fixpoint {rows cols : ℕ} (weak : Finset (ℕ × ℕ)) :
    ∀ (n : ℕ) (edges : Finset (ℕ × ℕ)),
      edges ⊆ Finset.range rows ×ˢ Finset.range cols →
      rows * cols + 1 ≤ n + edges.card →
      onePass rows cols weak (growLoop rows cols weak n edges)
        = growLoop rows cols weak n edges := by
  intro n
  induction n with
  | zero =>
    intro edges hsub hcard
    exfalso
    have h1 : edges.card ≤ rows * cols := by
      have := Finset.card_le_card hsub
      rwa [Finset.card_product, Finset.card_range, Finset.card_range] at this
    omega
  | succ n ih =>
    intro edges hsub hcard
    rw [growLoop_succ]
    by_cases h : onePass rows cols weak edges = edges
    · rw [if_pos h]; exact h
    · rw [if_neg h]
      refine ih _ (onePass_subset_univ hsub) ?_
      have hlt : edges.card < (onePass rows cols weak edges).card :=
        Finset.card_lt_card
          (Finset.ssubset_iff_subset_ne.2 ⟨subset_onePass rows cols weak edges, fun he => h he.symm⟩)
      omega

lemma subset_growLoop {rows cols : ℕ} (weak : Finset (ℕ × ℕ)) :
    ∀ (n : ℕ) (edges : Finset (ℕ × ℕ)),
      edges ⊆ growLoop rows cols weak n edges := by
  intro n
  induction n with
  | zero => intro edges; exact Finset.Subset.refl _
  | succ n ih =>
    intro edges
    rw [growLoop_succ]
    split_ifs with h
    · exact Finset.Subset.refl _
    · exact (subset_onePass rows cols weak edges).trans (ih _)

lemma foldl_passStep_reach {rows cols : ℕ} {strong weak : Finset (ℕ × ℕ)} :
    ∀ (l : List (ℕ × ℕ)), (∀ p ∈ l, isInterior rows cols p) →
      ∀ {edges : Finset (ℕ × ℕ)},
        (∀ p ∈ edges, Reach rows cols strong weak p) →
        ∀ p ∈ l.foldl (passStep weak) edges, Reach rows cols strong weak p := by
  intro l
  induction l with
  | nil => intro _ edges he; exact he
  | cons a t ih =>
    intro hl edges he
    refine ih (fun p hp => hl p (List.mem_cons_of_mem a hp)) ?_
    intro p hp
    unfold passStep at hp
    split_ifs at hp with h
    · rcases Finset.mem_insert.1 hp with rfl | hp
      · obtain ⟨hw, _, q, hq, hqe⟩ := h
        exact Reach.step hw (hl p (List.mem_cons_self p t)) hq (he q hqe)
      · exact he p hp
    · exact he p hp

lemma onePass_reach {rows cols : ℕ} {strong weak edges : Finset (ℕ × ℕ)}
    (he : ∀ p ∈ edges, Reach rows cols strong weak p) :
    ∀ p ∈ onePass rows cols weak edges, Reach rows cols strong weak p :=
  foldl_passStep_reach _ (fun p hp => mem_interiorList.1 hp) he

lemma growLoop_reach {rows cols : ℕ} {strong weak : Finset (ℕ × ℕ)} :
    ∀ (n : ℕ) (edges : Finset (ℕ × ℕ)),
      (∀ p ∈ edges, Reach rows cols strong weak p) →
      ∀ p ∈ growLoop rows cols weak n edges, Reach rows cols strong weak p := by
  intro n
  induction n with
  | zero => intro edges he; exact he
  | succ n ih =>
    intro edges he
    rw [growLoop_succ]
    split_ifs with h
    · exact he
    · exact ih _ (onePass_reach he)

lemma fixpoint_closed {rows cols : ℕ} {weak edges : Finset (ℕ × ℕ)}
    (hfix : onePass rows cols weak edges = edges) {p q : ℕ × ℕ}
    (hw : p ∈ weak) (hint : isInterior rows cols p)
    (hq : q ∈ neighborList p.1 p.2) (hqe : q ∈ edges) : p ∈ edges := by
  by_contra hp
  obtain ⟨l1, l2, hsplit⟩ := List.append_of_mem (mem_interiorList.2 hint)
  have hdecomp : onePass rows cols weak edges
      = l2.foldl (passStep weak) (passStep weak (l1.foldl (passStep weak) edges) p) := by
    unfold onePass
    rw [hsplit, List.foldl_append]
    rfl
  set e1 := l1.foldl (passStep weak) edges with he1
  have h_e_sub_e1 : edges ⊆ e1 := subset_foldl_passStep weak l1 edges
  have h_e1_sub : e1 ⊆ edges := by
    have h1 : e1 ⊆ passStep weak e1 p := subset_passStep weak e1 p
    have h2 : passStep weak e1 p ⊆ l2.foldl (passStep weak) (passStep weak e1 p) :=
      subset_foldl_passStep weak l2 _
    have := (h1.trans h2)
    rw [← hdecomp, hfix] at this
    exact this
  have hp_e1 : p ∉ e1 := fun hmem => hp (h_e1_sub hmem)
  have hfire : passStep weak e1 p = insert p e1 := by
    unfold passStep
    rw [if_pos ⟨hw, hp_e1, q, hq, h_e_sub_e1 hqe⟩]
  have hp_result : p ∈ onePass rows cols weak edges := by
    rw [hdecomp, hfire]
    exact subset_foldl_passStep weak l2 _ (Finset.mem_insert_self p e1)
  rw [hfix] at hp_result
  exact hp hp_result

lemma reach_subset_fixpoint {rows cols : ℕ} {strong weak edges : Finset (ℕ × ℕ)}
    (hstrong : strong ⊆ edges) (hfix : onePass rows cols weak edges = edges) :
    ∀ p, Reach rows cols strong weak p → p ∈ edges := by
  intro p hp
  induction hp with
  | base h => exact hstrong h
  | step hw hint hq _ ih => exact fixpoint_closed hfix hw hint hq ih

lemma growLoop_eq_reach (rows cols : ℕ) (strong weak : Finset (ℕ × ℕ))
    (hstrong : strong ⊆ Finset.range rows ×ˢ Finset.range cols) (p : ℕ × ℕ) :
    p ∈ growLoop rows cols weak (rows * cols + 1) strong ↔
      Reach rows cols strong weak p := by
  constructor
  · exact growLoop_reach _ strong (fun q hq => Reach.base hq) p
  · exact reach_subset_fixpoint (subset_growLoop weak _ strong)
      (growLoop_fixpoint weak _ strong hstrong (by omega)) p

lemma onePass_weak_empty (rows cols : ℕ) (edges : Finset (ℕ × ℕ)) :
    onePass rows cols ∅ edges = edges := by
  unfold onePass
  induction interiorList rows cols with
  | nil => rfl
  | cons a t ih =>
    rw [List.foldl_cons]
    have hstep : passStep ∅ edges a = edges := by
      unfold passStep
      rw [if_neg (by rintro ⟨hw, _⟩; exact absurd hw (Finset.not_mem_empty a))]
    rw [hstep]
    exact ih

lemma growLoop_weak_empty (rows cols : ℕ) (n : ℕ) (edges : Finset (ℕ × ℕ)) :
    growLoop rows cols ∅ n edges = edges := by
  cases n with
  | zero => rfl
  | succ n => rw [growLoop_succ, if_pos (onePass_weak_empty rows cols edges)]

/-- **C7.** In the hysteresis growth phase of `applyThresholding`, the
accepted set after each pass is a superset of the accepted set after the
previous pass (a pass never removes a pixel), and the fixed-point loop
terminates on every finite grid: within `rows·cols + 1` passes the loop
reaches a state on which a further pass changes nothing. -/
theorem C7_monotone_terminating {α : Type} [LinearOrderedField α]
    (s : Grid α) (low high : α) :
    (∀ edges, edges ⊆
      onePass s.rows s.cols (weakSet s (low * gridMax s) (high * gridMax s)) edges) ∧
    (onePass s.rows s.cols (weakSet s (low * gridMax s) (high * gridMax s))
        (growLoop s.rows s.cols (weakSet s (low * gridMax s) (high * gridMax s))
          (s.rows * s.cols + 1) (strongSet s (high * gridMax s)))
      = growLoop s.rows s.cols (weakSet s (low * gridMax s) (high * gridMax s))
          (s.rows * s.cols + 1) (strongSet s (high * gridMax s))) :=
  ⟨fun edges => subset_onePass s.rows s.cols _ edges,
   growLoop_fixpoint _ _ _ (Finset.filter_subset _ _) (by omega)⟩

/-- **C8.** The final accepted set of the repeated-full-scan hysteresis
loop equals the set grown from the strong pixels by 8-adjacency
reachability through interior weak pixels (`Reach`) — the order-free
characterization that any equivalent BFS/DFS/flood-fill computes. -/
theorem C8_scan_equals_reachability {α : Type} [LinearOrderedField α]
    (s : Grid α) (low high : α) (y x : ℕ) :
    (applyThresholding s low high).data y x = 255 ↔
      Reach s.rows s.cols (strongSet s (high * gridMax s))
        (weakSet s (low * gridMax s) (high * gridMax s)) (y, x) := by
  have hmain := growLoop_eq_reach s.rows s.cols
    (strongSet s (high * gridMax s))
    (weakSet s (low * gridMax s) (high * gridMax s))
    (Finset.filter_subset _ _) (y, x)
  show (if (y, x) ∈ growLoop s.rows s.cols _ _ _ then 255 else 0) = 255 ↔ _
  split_ifs with h
  · exact ⟨fun _ => hmain.1 h, fun _ => rfl⟩
  · exact ⟨fun h255 => absurd h255 (by norm_num), fun hr => absurd (hmain.2 hr) h⟩

/-- **C10.** In `applyThresholding` the strong test precedes the weak
test: every in-range pixel with value `≥ highThreshold·M` is classified
strong regardless of `lowThreshold`; and when `lowThreshold >
highThreshold` (for a non-empty grid of non-negative values, as the
suppressed magnitudes always are), the weak set is empty, the growth loop
promotes nothing, and the output mask is exactly the strong set. -/
theorem C10_strong_precedence {α : Type} [LinearOrderedField α]
    (s : Grid α) (low high : α) (hr : 0 < s.rows) (hc : 0 < s.cols)
    (hnn : ∀ p ∈ Finset.range s.rows ×ˢ Finset.range s.cols, 0 ≤ s.data p.1 p.2)
    (hlh : high < low) :
    (∀ p ∈ Finset.range s.rows ×ˢ Finset.range s.cols,
      high * gridMax s ≤ s.data p.1 p.2 → p ∈ strongSet s (high * gridMax s)) ∧
    weakSet s (low * gridMax s) (high * gridMax s) = ∅ ∧
    (∀ y x, (applyThresholding s low high).data y x =
      if (y, x) ∈ strongSet s (high * gridMax s) then 255 else 0) := by
  have hM : 0 ≤ gridMax s := by
    have h00 : 0 ≤ s.data 0 0 :=
      hnn (0, 0) (Finset.mem_product.2 ⟨Finset.mem_range.2 hr, Finset.mem_range.2 hc⟩)
    exact le_trans h00 (init_le_foldr_max _ _)
  have hthr : high * gridMax s ≤ low * gridMax s :=
    mul_le_mul_of_nonneg_right hlh.le hM
  have hweak : weakSet s (low * gridMax s) (high * gridMax s) = ∅ := by
    unfold weakSet
    rw [Finset.filter_eq_empty_iff]
    rintro p _ ⟨hnot, hlow⟩
    exact hnot (le_trans hthr hlow)
  refine ⟨fun p hp hval => Finset.mem_filter.2 ⟨hp, hval⟩, hweak, fun y x => ?_⟩
  show (if (y, x) ∈ growLoop s.rows s.cols
      (weakSet s (low * gridMax s) (high * gridMax s)) (s.rows * s.cols + 1)
      (strongSet s (high * gridMax s)) then 255 else 0) = _
  rw [hweak, growLoop_weak_empty]

/-- Witness for C10 on a concrete 1×2 rational grid with `low = 1 >
1/2 = high`. -/
theorem C10_witness :
    ((1:ℚ)/2 < 1) ∧
    weakSet (⟨1, 2, fun _ x => if x = 0 then 3 else 1⟩ : Grid ℚ)
      (1 * gridMax (⟨1, 2, fun _ x => if x = 0 then 3 else 1⟩ : Grid ℚ))
      ((1/2) * gridMax (⟨1, 2, fun _ x => if x = 0 then 3 else 1⟩ : Grid ℚ)) = ∅ :=
  ⟨by norm_num,
   (C10_strong_precedence (⟨1, 2, fun _ x => if x = 0 then 3 else 1⟩ : Grid ℚ)
     1 (1/2) (by norm_num) (by norm_num) (by decide) (by norm_num)).2.1⟩

/-- **C2 counterexample.** With `lowThresholdRatio = 1` and
`highThresholdRatio = 1/2 ∈ [0,1]`, the output of `applyThresholding` on
the 1×2 grid `[10, 6]` contains the pixel `(0,1)` whose value 6 differs
from the global maximum 10 — refuting the claim that only pixels at the
global maximum survive for arbitrary `highThresholdRatio ∈ [0,1]`. -/
theorem C2_counterexample :
    (applyThresholding (⟨1, 2, fun _ x => if x = 0 then 10 else 6⟩ : Grid ℚ)
        1 (1/2)).data 0 1 = 255 ∧
    (⟨1, 2, fun _ x => if x = 0 then 10 else 6⟩ : Grid ℚ).data 0 1 ≠
      gridMax (⟨1, 2, fun _ x => if x = 0 then 10 else 6⟩ : Grid ℚ) := by
  have hmax : gridMax (⟨1, 2, fun _ x => if x = 0 then 10 else 6⟩ : Grid ℚ) = 10 := by
    decide
  constructor
  · have hmem : ((0, 1) : ℕ × ℕ) ∈
        strongSet (⟨1, 2, fun _ x => if x = 0 then 10 else 6⟩ : Grid ℚ)
          ((1/2) * gridMax (⟨1, 2, fun _ x => if x = 0 then 10 else 6⟩ : Grid ℚ)) := by
      refine Finset.mem_filter.2 ⟨by decide, ?_⟩
      rw [hmax]
      norm_num
    show (if ((0:ℕ), (1:ℕ)) ∈ growLoop 1 2 _ (1 * 2 + 1)
        (strongSet (⟨1, 2, fun _ x => if x = 0 then 10 else 6⟩ : Grid ℚ)
          ((1/2) * gridMax (⟨1, 2, fun _ x => if x = 0 then 10 else 6⟩ : Grid ℚ)))
      then (255:ℕ) else 0) = 255
    rw [if_pos (subset_growLoop _ _ _ hmem)]
  · rw [hmax]
    norm_num

/-- **C2 (amended).** If `lowThresholdRatio = 1` **and**
`highThresholdRatio = 1` (the only value of `high` in `[0,1]` compatible
with the documented precondition `low ≤ high`), the pixels in the output
mask of `applyThresholding` are exactly the in-range pixels whose
suppressed magnitude equals the global maximum of the suppressed grid. -/
theorem C2_low_ratio_one {α : Type} [LinearOrderedField α]
    (s : Grid α) (y x : ℕ) :
    (applyThresholding s 1 1).data y x = 255 ↔
      ((y, x) ∈ Finset.range s.rows ×ˢ Finset.range s.cols ∧
        s.data y x = gridMax s) := by
  have hstrong : strongSet s (1 * gridMax s)
      = (Finset.range s.rows ×ˢ Finset.range s.cols).filter
          fun p => s.data p.1 p.2 = gridMax s := by
    unfold strongSet
    refine Finset.filter_congr fun p hp => ?_
    rw [one_mul]
    obtain ⟨h1, h2⟩ := Finset.mem_product.1 hp
    rw [Finset.mem_range] at h1 h2
    have hle := le_gridMax s h1 h2
    constructor
    · intro h; exact le_antisymm hle h
    · intro h; exact ge_of_eq h
  have hweak : weakSet s (1 * gridMax s) (1 * gridMax s) = ∅ := by
    unfold weakSet
    rw [Finset.filter_eq_empty_iff]
    rintro p _ ⟨hnot, hlow⟩
    exact hnot hlow
  show (if (y, x) ∈ growLoop s.rows s.cols
      (weakSet s (1 * gridMax s) (1 * gridMax s)) (s.rows * s.cols + 1)
      (strongSet s (1 * gridMax s)) then 255 else 0) = 255 ↔ _
  rw [hweak, growLoop_weak_empty, hstrong]
  split_ifs with h
  · simp only [Finset.mem_filter] at h
    exact ⟨fun _ => h, fun _ => rfl⟩
  · simp only [Finset.mem_filter] at h
    exact ⟨fun h255 => absurd h255 (by norm_num), fun hr => absurd hr h⟩

/-- Clamp an integer coordinate into `[0, n-1]` (replicate border
extension for out-of-grid reads). -/
def clampI (n : ℕ) (i : ℤ) : ℕ := (max 0 (min i ((n : ℤ) - 1))).toNat

lemma clampI_lt {n : ℕ} (hn : 0 < n) (i : ℤ) : clampI n i < n := by
  unfold clampI
  have h1 : min i ((n : ℤ) - 1) ≤ (n : ℤ) - 1 := min_le_right _ _
  have h2 : max 0 (min i ((n : ℤ) - 1)) ≤ (n : ℤ) - 1 :=
    max_le (by omega) h1
  have h0 : (0 : ℤ) ≤ max 0 (min i ((n : ℤ) - 1)) := le_max_left _ _
  rw [Int.toNat_lt h0]
  omega

/-- Modelled from the spec: the Gaussian convolution primitive
(`cv::GaussianBlur`, a §6 collaborator contract) — convolution with a
square kernel of radius `r` (weights `ker`, normalized to sum 1 for a
true Gaussian), replicate border extension (§4.1/§4.2 edge policy). -/
noncomputable def gaussianBlur (img : Grid ℝ) (ker : ℤ → ℤ → ℝ) (r : ℕ) : Grid ℝ :=
  ⟨img.rows, img.cols, fun y x =>
    ∑ dy ∈ Finset.Icc (-(r : ℤ)) (r : ℤ), ∑ dx ∈ Finset.Icc (-(r : ℤ)) (r : ℤ),
      ker dy dx *
        img.data (clampI img.rows ((y : ℤ) + dy)) (clampI img.cols ((x : ℤ) + dx))⟩

/-- Modelled from the spec: the first-derivative convolution primitive
(`cv::Sobel` with `dx=1, dy=0, ksize=3`, a §6 collaborator contract):
3×3 separable kernel, weights `[1,0,-1] × [1,2,1]` (§4.2), replicate
border extension. -/
noncomputable def sobelX (g : Grid ℝ) : Grid ℝ :=
  ⟨g.rows, g.cols, fun y x =>
    (g.data (clampI g.rows ((y : ℤ) - 1)) (clampI g.cols ((x : ℤ) + 1))
      + 2 * g.data (clampI g.rows (y : ℤ)) (clampI g.cols ((x : ℤ) + 1))
      + g.data (clampI g.rows ((y : ℤ) + 1)) (clampI g.cols ((x : ℤ) + 1)))
    - (g.data (clampI g.rows ((y : ℤ) - 1)) (clampI g.cols ((x : ℤ) - 1))
      + 2 * g.data (clampI g.rows (y : ℤ)) (clampI g.cols ((x : ℤ) - 1))
      + g.data (clampI g.rows ((y : ℤ) + 1)) (clampI g.cols ((x : ℤ) - 1)))⟩

/-- Modelled from the spec: the transposed Sobel kernel (`cv::Sobel` with
`dx=0, dy=1, ksize=3`). -/
noncomputable def sobelY (g : Grid ℝ) : Grid ℝ :=
  ⟨g.rows, g.cols, fun y x =>
    (g.data (clampI g.rows ((y : ℤ) + 1)) (clampI g.cols ((x : ℤ) - 1))
      + 2 * g.data (clampI g.rows ((y : ℤ) + 1)) (clampI g.cols (x : ℤ))
      + g.data (clampI g.rows ((y : ℤ) + 1)) (clampI g.cols ((x : ℤ) + 1)))
    - (g.data (clampI g.rows ((y : ℤ) - 1)) (clampI g.cols ((x : ℤ) - 1))
      + 2 * g.data (clampI g.rows ((y : ℤ) - 1)) (clampI g.cols (x : ℤ))
      + g.data (clampI g.rows ((y : ℤ) - 1)) (clampI g.cols ((x : ℤ) + 1)))⟩

/-- `EdgeDetector::computeGrayGradients` (edge_detector.cpp lines
152-164), applied to the already-blurred float image: Sobel derivatives,
gray structure-tensor coefficients, then magnitude and direction
(the `GradientResult` pair). -/
noncomputable def computeGrayGradients (image : Grid ℝ) : Grid ℝ × Grid ℝ :=
  (calculateGradientMagnitude
      (computeCoefficientsGray (sobelX image) (sobelY image)).1
      (computeCoefficientsGray (sobelX image) (sobelY image)).2.1
      (computeCoefficientsGray (sobelX image) (sobelY image)).2.2,
   calculateGradientDirection
      (computeCoefficientsGray (sobelX image) (sobelY image)).1
      (computeCoefficientsGray (sobelX image) (sobelY image)).2.1
      (computeCoefficientsGray (sobelX image) (sobelY image)).2.2)

/-- `cv::split`: extract one channel of a 3-channel image. -/
def channel (g : Grid (ℝ × ℝ × ℝ)) (i : Fin 3) : Grid ℝ :=
  ⟨g.rows, g.cols, fun y x =>
    match i with
    | 0 => (g.data y x).1
    | 1 => (g.data y x).2.1
    | 2 => (g.data y x).2.2⟩

/-- `EdgeDetector::computeColorGradients` (edge_detector.cpp lines
171-188), applied to the already-blurred 3-channel image: split, Sobel
per channel, color structure tensor, magnitude and direction. -/
noncomputable def computeColorGradients (image : Grid (ℝ × ℝ × ℝ)) :
    Grid ℝ × Grid ℝ :=
  (calculateGradientMagnitude
      (computeCoefficientsColor (fun i => sobelX (channel image i))
        (fun i => sobelY (channel image i))).1
      (computeCoefficientsColor (fun i => sobelX (channel image i))
        (fun i => sobelY (channel image i))).2.1
      (computeCoefficientsColor (fun i => sobelX (channel image i))
        (fun i => sobelY (channel image i))).2.2,
   calculateGradientDirection
      (computeCoefficientsColor (fun i => sobelX (channel image i))
        (fun i => sobelY (channel image i))).1
      (computeCoefficientsColor (fun i => sobelX (channel image i))
        (fun i => sobelY (channel image i))).2.1
      (computeCoefficientsColor (fun i => sobelX (channel image i))
        (fun i => sobelY (channel image i))).2.2)

/-- Modelled from the spec: `cv::GaussianBlur` on a 3-channel image blurs
each channel independently. -/
noncomputable def gaussianBlur3 (img : Grid (ℝ × ℝ × ℝ)) (ker : ℤ → ℤ → ℝ)
    (r : ℕ) : Grid (ℝ × ℝ × ℝ) :=
  ⟨img.rows, img.cols, fun y x =>
    ((gaussianBlur (channel img 0) ker r).data y x,
     (gaussianBlur (channel img 1) ker r).data y x,
     (gaussianBlur (channel img 2) ker r).data y x)⟩

/-- `EdgeDetector::process` (edge_detector.cpp lines 309-314) for a
grayscale source (`isColor = false`): blur, gradients, suppression,
thresholding.  The Gaussian kernel of the blur collaborator is abstracted
as `(ker, r)`. -/
noncomputable def processGray (img : Grid ℝ) (ker : ℤ → ℤ → ℝ) (r : ℕ)
    (lowThreshold highThreshold : ℝ) : Grid ℕ :=
  applyThresholding
    (applySuppression (computeGrayGradients (gaussianBlur img ker r)).1
      (computeGrayGradients (gaussianBlur img ker r)).2)
    lowThreshold highThreshold

/-- `EdgeDetector::process` (edge_detector.cpp lines 309-314) for a
3-channel source (`isColor = true`). -/
noncomputable def processColor (img : Grid (ℝ × ℝ × ℝ)) (ker : ℤ → ℤ → ℝ)
    (r : ℕ) (lowThreshold highThreshold : ℝ) : Grid ℕ :=
  applyThresholding
    (applySuppression (computeColorGradients (gaussianBlur3 img ker r)).1
      (computeColorGradients (gaussianBlur3 img ker r)).2)
    lowThreshold highThreshold

lemma gaussianBlur_uniform {img : Grid ℝ} {c : ℝ}
    (hr : 0 < img.rows) (hc : 0 < img.cols)
    (himg : ∀ y x, y < img.rows → x < img.cols → img.data y x = c)
    {ker : ℤ → ℤ → ℝ} {r : ℕ}
    (hker : ∑ dy ∈ Finset.Icc (-(r : ℤ)) (r : ℤ),
      ∑ dx ∈ Finset.Icc (-(r : ℤ)) (r : ℤ), ker dy dx = 1) :
    ∀ y x, (gaussianBlur img ker r).data y x = c := by
  intro y x
  show (∑ dy ∈ Finset.Icc (-(r : ℤ)) (r : ℤ), ∑ dx ∈ Finset.Icc (-(r : ℤ)) (r : ℤ),
      ker dy dx *
        img.data (clampI img.rows ((y : ℤ) + dy)) (clampI img.cols ((x : ℤ) + dx))) = c
  have h1 : (∑ dy ∈ Finset.Icc (-(r : ℤ)) (r : ℤ), ∑ dx ∈ Finset.Icc (-(r : ℤ)) (r : ℤ),
      ker dy dx *
        img.data (clampI img.rows ((y : ℤ) + dy)) (clampI img.cols ((x : ℤ) + dx)))
      = ∑ dy ∈ Finset.Icc (-(r : ℤ)) (r : ℤ),
          (∑ dx ∈ Finset.Icc (-(r : ℤ)) (r : ℤ), ker dy dx) * c := by
    refine Finset.sum_congr rfl fun dy _ => ?_
    rw [Finset.sum_mul]
    refine Finset.sum_congr rfl fun dx _ => ?_
    rw [himg _ _ (clampI_lt hr _) (clampI_lt hc _)]
  rw [h1, ← Finset.sum_mul, hker, one_mul]

lemma sobelX_const {g : Grid ℝ} {c : ℝ} (h : ∀ y x, g.data y x = c) :
    ∀ y x, (sobelX g).data y x = 0 := by
  intro y x
  show (g.data (clampI g.rows ((y : ℤ) - 1)) (clampI g.cols ((x : ℤ) + 1))
      + 2 * g.data (clampI g.rows (y : ℤ)) (clampI g.cols ((x : ℤ) + 1))
      + g.data (clampI g.rows ((y : ℤ) + 1)) (clampI g.cols ((x : ℤ) + 1)))
    - (g.data (clampI g.rows ((y : ℤ) - 1)) (clampI g.cols ((x : ℤ) - 1))
      + 2 * g.data (clampI g.rows (y : ℤ)) (clampI g.cols ((x : ℤ) - 1))
      + g.data (clampI g.rows ((y : ℤ) + 1)) (clampI g.cols ((x : ℤ) - 1))) = 0
  rw [h, h, h, h, h, h]
  ring

lemma sobelY_const {g : Grid ℝ} {c : ℝ} (h : ∀ y x, g.data y x = c) :
    ∀ y x, (sobelY g).data y x = 0 := by
  intro y x
  show (g.data (clampI g.rows ((y : ℤ) + 1)) (clampI g.cols ((x : ℤ) - 1))
      + 2 * g.data (clampI g.rows ((y : ℤ) + 1)) (clampI g.cols (x : ℤ))
      + g.data (clampI g.rows ((y : ℤ) + 1)) (clampI g.cols ((x : ℤ) + 1)))
    - (g.data (clampI g.rows ((y : ℤ) - 1)) (clampI g.cols ((x : ℤ) - 1))
      + 2 * g.data (clampI g.rows ((y : ℤ) - 1)) (clampI g.cols (x : ℤ))
      + g.data (clampI g.rows ((y : ℤ) - 1)) (clampI g.cols ((x : ℤ) + 1))) = 0
  rw [h, h, h, h, h, h]
  ring

lemma thetaPix_zero : thetaPix 0 0 0 = 0 := by
  unfold thetaPix atan2
  rw [if_neg (by norm_num)]
  have h : ({ re := 0 - 0, im := 2 * 0 } : Complex) = 0 := by
    apply Complex.ext <;> simp
  rw [h, Complex.arg_zero, mul_zero]

lemma magnitudePix_zero : magnitudePix 0 0 0 = 0 := by
  unfold magnitudePix magExprPix
  rw [thetaPix_zero]
  norm_num

lemma applySuppression_zero_mag {mag : Grid ℝ} (dir : Grid ℝ)
    (hm : ∀ y x, mag.data y x = 0) :
    ∀ y x, (applySuppression mag dir).data y x = 0 := by
  intro y x
  show (if 1 ≤ y ∧ y + 1 < mag.rows ∧ 1 ≤ x ∧ x + 1 < mag.cols then
      if (selectQR mag.data y x (normDeg (dir.data y x))).1 ≤ mag.data y x ∧
         (selectQR mag.data y x (normDeg (dir.data y x))).2 ≤ mag.data y x then
        mag.data y x
      else 0
    else 0) = 0
  split_ifs with h1 h2
  · exact hm y x
  · rfl
  · rfl

lemma gridValues_all_zero {α : Type} [LinearOrderedField α] {s : Grid α}
    (hs : ∀ y x, s.data y x = 0) : ∀ a ∈ gridValues s, a = 0 := by
  intro a ha
  unfold gridValues at ha
  rw [List.mem_join] at ha
  obtain ⟨l, hl, hal⟩ := ha
  obtain ⟨yy, _, rfl⟩ := List.mem_map.1 hl
  obtain ⟨xx, _, rfl⟩ := List.mem_map.1 hal
  exact hs yy xx

lemma gridMax_zero {α : Type} [LinearOrderedField α] {s : Grid α}
    (hs : ∀ y x, s.data y x = 0) : gridMax s = 0 := by
  unfold gridMax
  refine le_antisymm (foldr_max_le (le_of_eq (hs 0 0)) fun a ha =>
    le_of_eq (gridValues_all_zero hs a ha)) ?_
  calc (0 : α) = s.data 0 0 := (hs 0 0).symm
    _ ≤ _ := init_le_foldr_max _ _

lemma applyThresholding_all_zero {α : Type} [LinearOrderedField α]
    {s : Grid α} (hs : ∀ y x, s.data y x = 0) (low high : α) :
    ∀ y x, y < s.rows → x < s.cols →
      (applyThresholding s low high).data y x = 255 := by
  intro y x hy hx
  have hstrong : (y, x) ∈ strongSet s (high * gridMax s) := by
    refine Finset.mem_filter.2
      ⟨Finset.mem_product.2 ⟨Finset.mem_range.2 hy, Finset.mem_range.2 hx⟩, ?_⟩
    rw [gridMax_zero hs, mul_zero, hs]
  show (if (y, x) ∈ growLoop s.rows s.cols
      (weakSet s (low * gridMax s) (high * gridMax s)) (s.rows * s.cols + 1)
      (strongSet s (high * gridMax s)) then 255 else 0) = 255
  rw [if_pos (subset_growLoop _ _ _ hstrong)]

/-- **C1.** (code bug exhibited) For a 5×5 grayscale image in which all
pixels are equal, the gradients are zero everywhere and the suppressed
magnitude is zero everywhere — but then the global maximum is 0, both
thresholds are 0, and the `val ≥ highThr` test classifies **every** pixel
strong: `process` returns a mask in which every pixel is an **edge**
(255), contradicting the claimed all-non-edge mask. -/
theorem C1_uniform_image_all_edge (img : Grid ℝ) (c : ℝ) (ker : ℤ → ℤ → ℝ)
    (r : ℕ) (low high : ℝ) (hrows : img.rows = 5) (hcols : img.cols = 5)
    (himg : ∀ y x, y < img.rows → x < img.cols → img.data y x = c)
    (hker : ∑ dy ∈ Finset.Icc (-(r : ℤ)) (r : ℤ),
      ∑ dx ∈ Finset.Icc (-(r : ℤ)) (r : ℤ), ker dy dx = 1) :
    (∀ y x, (sobelX (gaussianBlur img ker r)).data y x = 0 ∧
            (sobelY (gaussianBlur img ker r)).data y x = 0) ∧
    (∀ y x, (computeGrayGradients (gaussianBlur img ker r)).1.data y x = 0) ∧
    (∀ y x, (applySuppression (computeGrayGradients (gaussianBlur img ker r)).1
        (computeGrayGradients (gaussianBlur img ker r)).2).data y x = 0) ∧
    (∀ y x, y < img.rows → x < img.cols →
      (processGray img ker r low high).data y x = 255) := by
  have hr : 0 < img.rows := by omega
  have hc : 0 < img.cols := by omega
  have hblur : ∀ y x, (gaussianBlur img ker r).data y x = c :=
    gaussianBlur_uniform hr hc himg hker
  have hsx := sobelX_const hblur
  have hsy := sobelY_const hblur
  have hmag : ∀ y x, (computeGrayGradients (gaussianBlur img ker r)).1.data y x = 0 := by
    intro y x
    show magnitudePix
      ((sobelX (gaussianBlur img ker r)).data y x * (sobelX (gaussianBlur img ker r)).data y x)
      ((sobelY (gaussianBlur img ker r)).data y x * (sobelY (gaussianBlur img ker r)).data y x)
      ((sobelX (gaussianBlur img ker r)).data y x * (sobelY (gaussianBlur img ker r)).data y x) = 0
    rw [hsx y x, hsy y x, mul_zero]
    exact magnitudePix_zero
  have hsup := applySuppression_zero_mag
    (computeGrayGradients (gaussianBlur img ker r)).2 hmag
  exact ⟨fun y x => ⟨hsx y x, hsy y x⟩, hmag, hsup,
    fun y x hy hx => applyThresholding_all_zero hsup low high y x hy hx⟩

/-- Witness for C1 at the concrete uniform 5×5 image of value 7, with the
trivial normalized 1×1 kernel and the spec's default threshold ratios. -/
theorem C1_witness :
    (∑ dy ∈ Finset.Icc (-(0 : ℤ)) (0 : ℤ), ∑ dx ∈ Finset.Icc (-(0 : ℤ)) (0 : ℤ),
      (fun (_ _ : ℤ) => (1 : ℝ)) dy dx) = 1 ∧
    (processGray ⟨5, 5, fun _ _ => 7⟩ (fun _ _ => 1) 0 0.05 0.15).data 2 2 = 255 := by
  have hker : (∑ dy ∈ Finset.Icc (-(0 : ℤ)) (0 : ℤ), ∑ dx ∈ Finset.Icc (-(0 : ℤ)) (0 : ℤ),
      (fun (_ _ : ℤ) => (1 : ℝ)) dy dx) = 1 := by norm_num
  exact ⟨hker,
    (C1_uniform_image_all_edge ⟨5, 5, fun _ _ => 7⟩ 7 (fun _ _ => 1) 0 0.05 0.15
      rfl rfl (fun _ _ _ _ => rfl) hker).2.2.2 2 2 (by norm_num) (by norm_num)⟩

lemma applyThresholding_data_binary {α : Type} [LinearOrderedField α]
    (s : Grid α) (low high : α) (y x : ℕ) :
    (applyThresholding s low high).data y x = 0 ∨
    (applyThresholding s low high).data y x = 255 := by
  show (if (y, x) ∈ growLoop s.rows s.cols
      (weakSet s (low * gridMax s) (high * gridMax s)) (s.rows * s.cols + 1)
      (strongSet s (high * gridMax s)) then (255:ℕ) else 0) = 0 ∨
    (if (y, x) ∈ growLoop s.rows s.cols
      (weakSet s (low * gridMax s) (high * gridMax s)) (s.rows * s.cols + 1)
      (strongSet s (high * gridMax s)) then (255:ℕ) else 0) = 255
  split_ifs with h
  · exact Or.inr rfl
  · exact Or.inl rfl

/-- **C9.** For every non-empty source (grayscale or 3-channel, in the
matching color mode), `process` returns a single-channel grid with the
same `rows × cols` as the source, each of whose pixels is one of exactly
two values (0 = non-edge, 255 = edge). -/
theorem C9_mask_shape (img : Grid ℝ) (img3 : Grid (ℝ × ℝ × ℝ))
    (ker : ℤ → ℤ → ℝ) (r : ℕ) (low high : ℝ)
    (h1 : 0 < img.rows) (h2 : 0 < img.cols)
    (h3 : 0 < img3.rows) (h4 : 0 < img3.cols) :
    ((processGray img ker r low high).rows = img.rows ∧
     (processGray img ker r low high).cols = img.cols ∧
     (∀ y x, (processGray img ker r low high).data y x = 0 ∨
             (processGray img ker r low high).data y x = 255)) ∧
    ((processColor img3 ker r low high).rows = img3.rows ∧
     (processColor img3 ker r low high).cols = img3.cols ∧
     (∀ y x, (processColor img3 ker r low high).data y x = 0 ∨
             (processColor img3 ker r low high).data y x = 255)) := by
  exact ⟨⟨rfl, rfl, fun y x => applyThresholding_data_binary _ _ _ y x⟩,
    ⟨rfl, rfl, fun y x => applyThresholding_data_binary _ _ _ y x⟩⟩

/-- Witness for C9 on concrete non-empty 1×1 sources. -/
theorem C9_witness :
    (0 : ℕ) < 1 ∧
    (processGray ⟨1, 1, fun _ _ => 0⟩ (fun _ _ => 1) 0 0 0).rows = 1 ∧
    (processColor ⟨1, 1, fun _ _ => (0, 0, 0)⟩ (fun _ _ => 1) 0 0 0).rows = 1 :=
  ⟨by norm_num,
   (C9_mask_shape ⟨1, 1, fun _ _ => 0⟩ ⟨1, 1, fun _ _ => (0, 0, 0)⟩ (fun _ _ => 1)
     0 0 0 (by norm_num) (by norm_num) (by norm_num) (by norm_num)).1.1,
   (C9_mask_shape ⟨1, 1, fun _ _ => 0⟩ ⟨1, 1, fun _ _ => (0, 0, 0)⟩ (fun _ _ => 1)
     0 0 0 (by norm_num) (by norm_num) (by norm_num) (by norm_num)).2.1⟩

end EdgeDetection
